import Mathlib

/-!
Verification of the powex proof-of-work engine
(`src/native/powex_nif/src/lib.rs`) against its specification.

The engine is embedded shallowly:
* Rust byte slices (`&[u8]`, `Binary`) become `List Nat` with every entry a
  byte value below 256;
* Rust `u64` / `u32` values become `Nat` (no arithmetic in the engine can
  overflow: nonces stay below `2^64`, and the partition arithmetic of
  `compute_parallel` stays below `2^64` for every worker count up to 64);
* Rust `String` digests become `List Char`;
* fallible operations return `Except Err α`, with one `Err` constructor per
  distinct error string of the source;
* the `sha2` crate's streaming hasher is modelled by its documented
  semantics: the state accumulates the fed bytes and `finalize` applies the
  SHA-256 compression pipeline (FIPS 180-4) to the accumulated bytes.
-/

namespace Powex

/-! ### SHA-256 (FIPS 180-4), executable over byte lists -/

/-- Truncation to a 32-bit word. -/
def w32 (x : Nat) : Nat := x % 4294967296

/-- Right rotation of a 32-bit word by `n` bits. -/
def rotr32 (n x : Nat) : Nat := ((x >>> n) ||| (x <<< (32 - n))) % 4294967296

/-- SHA-256 `Ch` function. -/
def shaCh (x y z : Nat) : Nat := (x &&& y) ^^^ ((x ^^^ 4294967295) &&& z)

/-- SHA-256 `Maj` function. -/
def shaMaj (x y z : Nat) : Nat := (x &&& y) ^^^ (x &&& z) ^^^ (y &&& z)

/-- SHA-256 big sigma 0. -/
def bigSigma0 (x : Nat) : Nat := rotr32 2 x ^^^ rotr32 13 x ^^^ rotr32 22 x

/-- SHA-256 big sigma 1. -/
def bigSigma1 (x : Nat) : Nat := rotr32 6 x ^^^ rotr32 11 x ^^^ rotr32 25 x

/-- SHA-256 small sigma 0. -/
def smallSigma0 (x : Nat) : Nat := rotr32 7 x ^^^ rotr32 18 x ^^^ (x >>> 3)

/-- SHA-256 small sigma 1. -/
def smallSigma1 (x : Nat) : Nat := rotr32 17 x ^^^ rotr32 19 x ^^^ (x >>> 10)

/-- The 64 SHA-256 round constants (FIPS 180-4 section 4.2.2, written in
decimal). -/
def sha256K : List Nat :=
  [1116352408, 1899447441, 3049323471, 3921009573, 961987163,
   1508970993, 2453635748, 2870763221, 3624381080, 310598401,
   607225278, 1426881987, 1925078388, 2162078206, 2614888103,
   3248222580, 3835390401, 4022224774, 264347078, 604807628,
   770255983, 1249150122, 1555081692, 1996064986, 2554220882,
   2821834349, 2952996808, 3210313671, 3336571891, 3584528711,
   113926993, 338241895, 666307205, 773529912, 1294757372,
   1396182291, 1695183700, 1986661051, 2177026350, 2456956037,
   2730485921, 2820302411, 3259730800, 3345764771, 3516065817,
   3600352804, 4094571909, 275423344, 430227734, 506948616,
   659060556, 883997877, 958139571, 1322822218, 1537002063,
   1747873779, 1955562222, 2024104815, 2227730452, 2361852424,
   2428436474, 2756734187, 3204031479, 3329325298]

/-- The SHA-256 initial hash value (FIPS 180-4 section 5.3.3, written in
decimal). -/
def sha256H0 : List Nat :=
  [1779033703, 3144134277, 1013904242, 2773480762,
   1359893119, 2600822924, 528734635, 1541459225]

/-- Big-endian 8-byte encoding of a (64-bit) natural number. -/
def beBytes8 (n : Nat) : List Nat :=
  [n / 72057594037927936 % 256, n / 281474976710656 % 256,
   n / 1099511627776 % 256, n / 4294967296 % 256,
   n / 16777216 % 256, n / 65536 % 256, n / 256 % 256, n % 256]

/-- SHA-256 padding: append `0x80`, then zeros to reach 56 mod 64 bytes,
then the 8-byte big-endian bit length of the message. -/
def padMessage (msg : List Nat) : List Nat :=
  msg ++ 128 :: List.replicate ((120 - (msg.length + 1) % 64) % 64) 0
      ++ beBytes8 (8 * msg.length)

/-- Group bytes into big-endian 32-bit words, four bytes at a time. -/
def chunkWords : List Nat → List Nat
  | b0 :: b1 :: b2 :: b3 :: rest =>
      (b0 * 16777216 + b1 * 65536 + b2 * 256 + b3) :: chunkWords rest
  | _ => []

/-- Group a word list into blocks of 16 words (fuel bounds the recursion). -/
def chunkBlocks : Nat → List Nat → List (List Nat)
  | 0, _ => []
  | _, [] => []
  | f + 1, ws => ws.take 16 :: chunkBlocks f (ws.drop 16)

/-- Extend a 16-word block to the 64-word message schedule, one word per
step. -/
def scheduleExtend : Nat → List Nat → List Nat
  | 0, ws => ws
  | k + 1, ws =>
      let n := ws.length
      scheduleExtend k (ws ++
        [w32 (smallSigma1 (ws.getD (n - 2) 0) + ws.getD (n - 7) 0 +
              smallSigma0 (ws.getD (n - 15) 0) + ws.getD (n - 16) 0)])

/-- One SHA-256 round: update the eight working variables with a round
constant and a schedule word. -/
def compressStep (st : List Nat) (kw : Nat × Nat) : List Nat :=
  match st with
  | [a, b, c, d, e, f, g, h] =>
      let t1 := w32 (h + bigSigma1 e + shaCh e f g + kw.1 + kw.2)
      let t2 := w32 (bigSigma0 a + shaMaj a b c)
      [w32 (t1 + t2), a, b, c, w32 (d + t1), e, f, g]
  | _ => st

/-- Compress one 16-word block into the running hash value. -/
def compressBlock (H : List Nat) (block : List Nat) : List Nat :=
  let ws := scheduleExtend 48 block
  let st := (sha256K.zip ws).foldl compressStep H
  List.zipWith (fun x y => w32 (x + y)) H st

/-- Serialize 32-bit words to big-endian bytes; every emitted byte is
reduced modulo 256. -/
def wordsToBytes (ws : List Nat) : List Nat :=
  ws.foldr (fun w acc =>
    w / 16777216 % 256 :: w / 65536 % 256 :: w / 256 % 256 :: w % 256 :: acc) []

/-- SHA-256 of a byte list: pad, compress block by block, serialize. -/
def sha256 (msg : List Nat) : List Nat :=
  let words := chunkWords (padMessage msg)
  wordsToBytes ((chunkBlocks words.length words).foldl compressBlock sha256H0)

/-! ### Hex encoding (`hex::encode`, lowercase) -/

/-- Lowercase hexadecimal digit for a value below 16. -/
def hexDigitChar (n : Nat) : Char :=
  if n < 10 then Char.ofNat (48 + n) else Char.ofNat (87 + n)

/-- Lowercase hex encoding of a byte list, two digits per byte, no
separators (`hex::encode`). -/
def hexEncode (bs : List Nat) : List Char :=
  bs.foldr (fun b acc => hexDigitChar (b / 16) :: hexDigitChar (b % 16) :: acc) []

/-- The sixteen lowercase hexadecimal characters. -/
def hexAlphabet : List Char := "0123456789abcdef".toList

/-! ### The streaming hasher of the `sha2` crate -/

/-- State of the streaming SHA-256 hasher: the bytes fed so far. -/
structure Sha256Acc where
  acc : List Nat

/-- `Sha256::new()`: empty accumulator. -/
def sha256New : Sha256Acc := ⟨[]⟩

/-- `hasher.update(bytes)`: append the fed bytes. -/
def Sha256Acc.update (s : Sha256Acc) (bs : List Nat) : Sha256Acc := ⟨s.acc ++ bs⟩

/-- `hasher.finalize()`: SHA-256 of all accumulated bytes. -/
def Sha256Acc.finalize (s : Sha256Acc) : List Nat := sha256 s.acc

/-! ### The engine (`lib.rs`) -/

/-- Little-endian 8-byte encoding of a 64-bit nonce (`u64::to_le_bytes`). -/
def u64_le_bytes (n : Nat) : List Nat :=
  [n % 256, n / 256 % 256, n / 65536 % 256, n / 16777216 % 256,
   n / 4294967296 % 256, n / 1099511627776 % 256,
   n / 281474976710656 % 256, n / 72057594037927936 % 256]

/-- `compute_hash` (lib.rs lines 16-22): feed the payload, then the nonce's
little-endian bytes, finalize and hex-encode. -/
def compute_hash (data : List Nat) (nonce : Nat) : List Char :=
  let hasher := sha256New
  let hasher := hasher.update data
  let hasher := hasher.update (u64_le_bytes nonce)
  hexEncode hasher.finalize

/-- `meets_difficulty` (lib.rs lines 25-32): difficulty 0 always passes;
otherwise the first `difficulty` characters of the digest must all be
`'0'`. -/
def meets_difficulty (hash : List Char) (difficulty : Nat) : Bool :=
  if difficulty == 0 then true
  else (hash.take difficulty).all (fun c => c == '0')

/-- The typed errors, one per distinct error string of the source:
`difficultyTooHigh` for the text about the max-64 difficulty,
`searchAborted` for the aborted computation, `noSolutionFound` for the
missing valid nonce, `invalidWorkerCount` for the 1-64 thread count. -/
inductive Err where
  | difficultyTooHigh
  | searchAborted
  | noSolutionFound
  | invalidWorkerCount
deriving DecidableEq, Repr

/-- `u64::MAX`. -/
def u64Max : Nat := 2 ^ 64 - 1

/-- The loop body of `compute` (lib.rs lines 43-56), fuel-indexed: at each
nonce, hash and test; on failure, the abort heuristic fires when the nonce
is a positive multiple of 1,000,000, the difficulty exceeds 20 and the
nonce exceeds 100,000,000; otherwise move to the next nonce.  Exhausted
fuel is the loop running off its range (`NoSolutionFound`). -/
def computeLoop (P : List Nat) (d : Nat) : Nat → Nat → Except Err Nat
  | 0, _ => .error .noSolutionFound
  | f + 1, nonce =>
      if meets_difficulty (compute_hash P nonce) d then .ok nonce
      else if 0 < nonce ∧ nonce % 1000000 = 0 ∧ 20 < d ∧ 100000000 < nonce then
        .error .searchAborted
      else computeLoop P d f (nonce + 1)

/-- `compute` (lib.rs lines 35-59): reject difficulties above 64, then scan
nonces from 0; the Rust range `0..u64::MAX` makes `u64::MAX` iterations. -/
def compute (P : List Nat) (d : Nat) : Except Err Nat :=
  if 64 < d then .error .difficultyTooHigh
  else computeLoop P d u64Max 0

/-- `valid` (lib.rs lines 62-67): recompute the hash and test the
difficulty. -/
def valid (data : List Nat) (nonce : Nat) (difficulty : Nat) : Bool :=
  meets_difficulty (compute_hash data nonce) difficulty

/-- `get_hash` (lib.rs lines 141-146): always `Ok` of the digest. -/
def get_hash (data : List Nat) (nonce : Nat) : Except Err (List Char) :=
  .ok (compute_hash data nonce)

/-! ### The parallel search (`compute_parallel`, lib.rs lines 70-138) -/

/-- `chunk_size = u64::MAX / num_threads` (lib.rs line 94). -/
def chunk_size (w : Nat) : Nat := u64Max / w

/-- `start_nonce = thread_id * chunk_size` (lib.rs line 101). -/
def start_nonce (w i : Nat) : Nat := i * chunk_size w

/-- `end_nonce` (lib.rs lines 102-106): `u64::MAX` for the last worker,
`(thread_id + 1) * chunk_size` otherwise; the scan range is exclusive of
this bound. -/
def end_nonce (w i : Nat) : Nat :=
  if i = w - 1 then u64Max else (i + 1) * chunk_size w

/-- One worker's scan (lib.rs lines 108-128), fuel-indexed over its range.
`obs nonce` abstracts the relaxed-atomic read of the shared termination
flag at that nonce: any real interleaving corresponds to some `obs`.  The
worker returns the nonce it stores, or `none` when it stops without
finding one (flag observed, abort heuristic, or range exhausted). -/
def worker_loop (P : List Nat) (d : Nat) (obs : Nat → Bool) (start : Nat) :
    Nat → Nat → Option Nat
  | 0, _ => none
  | f + 1, nonce =>
      if obs nonce then none
      else if meets_difficulty (compute_hash P nonce) d then some nonce
      else if 0 < nonce ∧ nonce % 1000000 = 0 ∧ 20 < d ∧
          100000000 < nonce - start then none
      else worker_loop P d obs start f (nonce + 1)

/-- Worker `i` of `w` scans `[start_nonce, end_nonce)` of its partition. -/
def worker_result (P : List Nat) (d : Nat) (obs : Nat → Bool) (w i : Nat) :
    Option Nat :=
  worker_loop P d obs (start_nonce w i)
    (end_nonce w i - start_nonce w i) (start_nonce w i)

/-- The set of observable outcomes of `compute_parallel` (lib.rs lines
70-138).  The guards are checked in source order (difficulty first, then
worker count).  In the valid case, each worker `i` runs under some flag
observation `obs i`; the caller joins every worker and returns `Ok` of a
stored nonce when the flag was set (any worker that returned `some`), and
`NoSolutionFound` when no worker stored one.  This relation
over-approximates the real schedules, so every property proved for all
`obs` holds of every real execution. -/
def compute_parallel_rel (P : List Nat) (d w : Nat) (r : Except Err Nat) : Prop :=
  if 64 < d then r = .error .difficultyTooHigh
  else if w = 0 ∨ 64 < w then r = .error .invalidWorkerCount
  else ∃ obs : Nat → Nat → Bool,
    (∃ i n, i < w ∧ worker_result P d (obs i) w i = some n ∧ r = .ok n) ∨
    ((∀ i, i < w → worker_result P d (obs i) w i = none) ∧
      r = .error .noSolutionFound)

/-- Modelled from the spec (section 4.1): the digest is the lowercase hex
encoding of the SHA-256 of the payload bytes followed by the nonce's
8-byte little-endian representation.  Stated separately from
`compute_hash` (which mirrors the source's streaming-hasher calls) to
compare the two. -/
def spec_digest (payload : List Nat) (nonce : Nat) : List Char :=
  hexEncode (sha256 (payload ++ u64_le_bytes nonce))

/-! ### Helper lemmas -/

/-- The streaming-hasher calls of `compute_hash` accumulate exactly the
payload followed by the nonce's little-endian bytes. -/
theorem compute_hash_eq (P : List Nat) (n : Nat) :
    compute_hash P n = hexEncode (sha256 (P ++ u64_le_bytes n)) := by
  simp [compute_hash, Sha256Acc.update, Sha256Acc.finalize, sha256New]

/-- Every byte serialized out of the final hash words is below 256. -/
theorem wordsToBytes_lt (ws : List Nat) : ∀ b ∈ wordsToBytes ws, b < 256 := by
  induction ws with
  | nil => intro b hb; simp [wordsToBytes] at hb
  | cons w ws ih =>
    intro b hb
    simp only [wordsToBytes, List.foldr_cons, List.mem_cons] at hb
    rcases hb with h | h | h | h | h
    · omega
    · omega
    · omega
    · omega
    · exact ih b h

/-- Every byte of a SHA-256 digest is below 256. -/
theorem sha256_lt (msg : List Nat) : ∀ b ∈ sha256 msg, b < 256 := by
  intro b hb
  exact wordsToBytes_lt _ b hb

/-- A hex digit of a value below 16 is one of the sixteen lowercase hex
characters. -/
theorem hexDigitChar_mem (n : Nat) (h : n < 16) : hexDigitChar n ∈ hexAlphabet := by
  interval_cases n <;> decide

/-- Hex encoding of genuine bytes only emits lowercase hex characters. -/
theorem hexEncode_mem (bs : List Nat) (hbs : ∀ b ∈ bs, b < 256) :
    ∀ c ∈ hexEncode bs, c ∈ hexAlphabet := by
  induction bs with
  | nil => intro c hc; simp [hexEncode] at hc
  | cons b bs ih =>
    intro c hc
    have hb : b < 256 := hbs b (List.mem_cons_self b bs)
    simp only [hexEncode, List.foldr_cons, List.mem_cons] at hc
    rcases hc with h | h | h
    · exact h ▸ hexDigitChar_mem (b / 16) (by omega)
    · exact h ▸ hexDigitChar_mem (b % 16) (by omega)
    · exact ih (fun x hx => hbs x (List.mem_cons_of_mem b hx)) c h

/-! ### Claims -/

/-- Claim C2: for every payload and nonce, `get_hash` returns the lowercase
hex encoding, with no separators, of the SHA-256 digest of the payload
bytes followed by the nonce's 8-byte little-endian representation
(`spec_digest` is written from the spec's words); every character of the
digest string is a lowercase hexadecimal character. -/
theorem c2_hash_construction : ∀ (P : List Nat) (n : Nat),
    get_hash P n = Except.ok (spec_digest P n) ∧
    ∀ c ∈ compute_hash P n, c ∈ hexAlphabet := by
  intro P n
  refine ⟨?_, ?_⟩
  · show Except.ok (compute_hash P n) = _
    rw [compute_hash_eq]
    rfl
  · intro c hc
    rw [compute_hash_eq] at hc
    exact hexEncode_mem _ (sha256_lt _) c hc

/-- Claim C8: `valid` is exactly the difficulty predicate applied to the
digest of the payload and nonce, and `get_hash` always succeeds with that
digest; both are total functions. -/
theorem c8_valid_recomputation : ∀ (P : List Nat) (n d : Nat),
    valid P n d = meets_difficulty (compute_hash P n) d ∧
    get_hash P n = Except.ok (compute_hash P n) :=
  fun _ _ _ => ⟨rfl, rfl⟩

/-- Claim C9: difficulty 0 always succeeds immediately with nonce 0, for
any payload, because every digest satisfies difficulty 0. -/
theorem c9_difficulty_zero : ∀ P : List Nat,
    compute P 0 = Except.ok 0 ∧ ∀ h : List Char, meets_difficulty h 0 = true :=
  fun _ => ⟨rfl, fun _ => rfl⟩

/-- Claim C4 counterexample: the empty digest string is shorter than
difficulty 1, yet `meets_difficulty` returns `true` on it (the bounded
take leaves nothing to compare, and `all` is vacuously true), refuting the
claim that any digest shorter than the difficulty is rejected. -/
theorem c4_counterexample :
    0 < 1 ∧ List.length ([] : List Char) < 1 ∧ meets_difficulty [] 1 = true := by
  decide

/-- Claim C4 as amended: for a positive difficulty and a digest string
shorter than the difficulty, `meets_difficulty` returns `true` exactly
when every character of the digest is `'0'` (vacuously for the empty
string), rather than always returning `false`. -/
theorem c4_short_digest : ∀ (h : List Char) (d : Nat), 0 < d → h.length < d →
    meets_difficulty h d = h.all (fun c => c == '0') := by
  intro h d hd hlen
  unfold meets_difficulty
  rw [if_neg (by simp; omega), List.take_of_length_le (by omega)]

/-- Claim C4 witness: the amended statement at the single-character digest
string consisting of one letter and difficulty 2. -/
theorem c4_witness :
    0 < 2 ∧ List.length ['a'] < 2 ∧
      meets_difficulty ['a'] 2 = List.all ['a'] (fun c => c == '0') :=
  ⟨by decide, by decide, c4_short_digest ['a'] 2 (by decide) (by decide)⟩

/-- Claim C10: the difficulty predicate is antitone in the difficulty, and
consequently so is `valid`: lowering the difficulty preserves success. -/
theorem c10_difficulty_antitone : ∀ (h : List Char) (P : List Nat) (n d dp : Nat),
    dp ≤ d →
    (meets_difficulty h d = true → meets_difficulty h dp = true) ∧
    (valid P n d = true → valid P n dp = true) := by
  intro h P n d dp hle
  have main : ∀ hh : List Char,
      meets_difficulty hh d = true → meets_difficulty hh dp = true := by
    intro hh hm
    by_cases hdp : dp = 0
    · simp [meets_difficulty, hdp]
    · have hd0 : d ≠ 0 := by omega
      unfold meets_difficulty at hm ⊢
      rw [if_neg (by simp [hdp])]
      rw [if_neg (by simp [hd0])] at hm
      rw [List.all_eq_true] at hm ⊢
      intro c hc
      apply hm
      have htt : hh.take dp = (hh.take d).take dp := by
        rw [List.take_take, Nat.min_eq_left hle]
      exact List.take_subset dp (hh.take d) (htt ▸ hc)
  exact ⟨main h, main (compute_hash P n)⟩

/-- Claim C10 witness: the antitonicity instance at a one-character digest,
payload the empty byte list, nonce 0, difficulties 1 and 0. -/
theorem c10_witness :
    0 ≤ 1 ∧
    (meets_difficulty ['0'] 1 = true → meets_difficulty ['0'] 0 = true) ∧
    (valid [] 0 1 = true → valid [] 0 0 = true) :=
  ⟨by decide, c10_difficulty_antitone ['0'] [] 0 1 0 (by decide)⟩

/-- Soundness and minimality of the sequential loop: an `ok` result is a
nonce no smaller than the starting one, its digest meets the difficulty,
and every nonce from the start up to it fails the difficulty. -/
theorem computeLoop_ok (P : List Nat) (d : Nat) :
    ∀ (f n r : Nat), computeLoop P d f n = .ok r →
      n ≤ r ∧ meets_difficulty (compute_hash P r) d = true ∧
      ∀ m, n ≤ m → m < r → meets_difficulty (compute_hash P m) d = false := by
  intro f
  induction f with
  | zero => intro n r h; simp [computeLoop] at h
  | succ f ih =>
    intro n r h
    simp only [computeLoop] at h
    by_cases hm : meets_difficulty (compute_hash P n) d = true
    · rw [if_pos hm] at h
      obtain rfl : n = r := by injection h
      exact ⟨Nat.le_refl n, hm, fun m h1 h2 => by omega⟩
    · rw [if_neg hm] at h
      by_cases hab : 0 < n ∧ n % 1000000 = 0 ∧ 20 < d ∧ 100000000 < n
      · rw [if_pos hab] at h
        simp at h
      · rw [if_neg hab] at h
        obtain ⟨h1, h2, h3⟩ := ih (n + 1) r h
        refine ⟨by omega, h2, fun m hm1 hm2 => ?_⟩
        rcases Nat.eq_or_lt_of_le hm1 with heq | hlt
        · rw [← heq]
          exact Bool.not_eq_true _ ▸ hm
        · exact h3 m hlt hm2

/-- Claim C1: when `compute` returns a nonce at a legal difficulty, that
nonce is valid and every strictly smaller nonce is invalid (the sequential
search returns the least satisfying nonce). -/
theorem c1_sequential_minimal : ∀ (P : List Nat) (d n : Nat), d ≤ 64 →
    compute P d = .ok n →
    valid P n d = true ∧ ∀ m, m < n → valid P m d = false := by
  intro P d n hd hc
  unfold compute at hc
  rw [if_neg (by omega)] at hc
  obtain ⟨-, h2, h3⟩ := computeLoop_ok P d u64Max 0 n hc
  exact ⟨h2, fun m hm => h3 m (Nat.zero_le m) hm⟩

/-- Claim C1 witness: at the empty payload and difficulty 0, `compute`
returns nonce 0, which is valid, and there is no smaller nonce. -/
theorem c1_witness :
    0 ≤ 64 ∧ compute [] 0 = Except.ok 0 ∧ valid [] 0 0 = true ∧
      ∀ m, m < 0 → valid [] m 0 = false :=
  ⟨by decide, rfl, c1_sequential_minimal [] 0 0 (by decide) rfl⟩

/-- A worker only ever returns a nonce whose digest meets the difficulty,
under every observation of the termination flag. -/
theorem worker_loop_some (P : List Nat) (d : Nat) (obs : Nat → Bool) (start : Nat) :
    ∀ f nonce n, worker_loop P d obs start f nonce = some n →
      meets_difficulty (compute_hash P n) d = true := by
  intro f
  induction f with
  | zero => intro nonce n h; simp [worker_loop] at h
  | succ f ih =>
    intro nonce n h
    simp only [worker_loop] at h
    by_cases h1 : obs nonce = true
    · rw [if_pos h1] at h; simp at h
    · rw [if_neg h1] at h
      by_cases hm : meets_difficulty (compute_hash P nonce) d = true
      · rw [if_pos hm] at h
        obtain rfl : nonce = n := by injection h
        exact hm
      · rw [if_neg hm] at h
        by_cases hab : 0 < nonce ∧ nonce % 1000000 = 0 ∧ 20 < d ∧
            100000000 < nonce - start
        · rw [if_pos hab] at h; simp at h
        · rw [if_neg hab] at h
          exact ih (nonce + 1) n h

/-- Claim C5: under legal difficulty and worker count, every nonce that
`compute_parallel` can return (under any interleaving of the shared-flag
observations) is valid; minimality is not claimed. -/
theorem c5_parallel_sound : ∀ (P : List Nat) (d w n : Nat),
    d ≤ 64 → 1 ≤ w → w ≤ 64 →
    compute_parallel_rel P d w (.ok n) → valid P n d = true := by
  intro P d w n hd hw1 hw2 hrel
  unfold compute_parallel_rel at hrel
  rw [if_neg (by omega), if_neg (by omega)] at hrel
  obtain ⟨obs, hcase⟩ := hrel
  rcases hcase with ⟨i, m, hi, hres, heq⟩ | ⟨-, heq⟩
  · obtain rfl : n = m := by injection heq
    exact worker_loop_some P d (obs i) (start_nonce w i) _ _ n hres
  · simp at heq

/-- Claim C5 witness: with the empty payload, difficulty 0 and one worker,
the outcome `ok 0` is observable and nonce 0 is valid. -/
theorem c5_witness :
    0 ≤ 64 ∧ 1 ≤ 1 ∧ 1 ≤ 64 ∧
      compute_parallel_rel [] 0 1 (Except.ok 0) ∧ valid [] 0 0 = true := by
  have hrel : compute_parallel_rel [] 0 1 (Except.ok 0) :=
    ⟨fun _ _ => false, Or.inl ⟨0, 0, by omega, rfl, rfl⟩⟩
  exact ⟨by decide, by decide, by decide, hrel,
    c5_parallel_sound [] 0 1 0 (by decide) (by decide) (by decide) hrel⟩

/-- Claim C6 counterexample: with difficulty 65 and worker count 0,
`compute_parallel` fails with `DifficultyTooHigh` (the difficulty guard is
checked first), not with `InvalidWorkerCount` as the claim requires for
every worker count 0. -/
theorem c6_counterexample :
    compute_parallel_rel [] 65 0 (.error .difficultyTooHigh) ∧
    ¬ compute_parallel_rel [] 65 0 (.error .invalidWorkerCount) := by
  constructor
  · simp [compute_parallel_rel]
  · simp [compute_parallel_rel]

/-- Claim C6 as amended: `compute` with difficulty above 64 fails with
`DifficultyTooHigh`; `compute_parallel` checks the difficulty first, so it
fails with `DifficultyTooHigh` whenever the difficulty exceeds 64, and
with `InvalidWorkerCount` when the difficulty is legal and the worker
count is 0 or above 64.  In each case the typed error is the only possible
outcome. -/
theorem c6_boundary_errors :
    (∀ (P : List Nat) (d : Nat), 64 < d →
      compute P d = .error .difficultyTooHigh) ∧
    (∀ (P : List Nat) (d w : Nat) (r : Except Err Nat), 64 < d →
      compute_parallel_rel P d w r → r = .error .difficultyTooHigh) ∧
    (∀ (P : List Nat) (d w : Nat) (r : Except Err Nat), d ≤ 64 →
      (w = 0 ∨ 64 < w) → compute_parallel_rel P d w r →
      r = .error .invalidWorkerCount) := by
  refine ⟨fun P d hd => ?_, fun P d w r hd hrel => ?_,
    fun P d w r hd hw hrel => ?_⟩
  · unfold compute
    rw [if_pos hd]
  · unfold compute_parallel_rel at hrel
    rwa [if_pos hd] at hrel
  · unfold compute_parallel_rel at hrel
    rwa [if_neg (by omega), if_pos hw] at hrel

/-- Claim C6 witness: the amended statement at difficulty 65 for `compute`
and at difficulty 0 with worker count 0 for `compute_parallel`. -/
theorem c6_witness :
    64 < 65 ∧ compute [] 65 = Except.error Err.difficultyTooHigh ∧
      (Except.error Err.invalidWorkerCount : Except Err Nat) =
        Except.error Err.invalidWorkerCount := by
  refine ⟨by decide, c6_boundary_errors.1 [] 65 (by decide),
    c6_boundary_errors.2.2 [] 0 0 _ (by decide) (Or.inl rfl) ?_⟩
  simp [compute_parallel_rel]

/-- Claim C3 counterexample: with one worker the code's chunk size is
`u64::MAX / 1 = 2^64 - 1`, not `2^64 / 1`, and the single range
`[0, 2^64 - 1)` (the scan bound is exclusive) does not contain the nonce
`2^64 - 1`, so the union of ranges does not cover the entire nonce
space. -/
theorem c3_counterexample :
    (1 ≤ 1 ∧ 1 ≤ 64) ∧ chunk_size 1 ≠ 2 ^ 64 / 1 ∧
    ¬ (start_nonce 1 0 ≤ 2 ^ 64 - 1 ∧ 2 ^ 64 - 1 < end_nonce 1 0) := by
  decide

/-- Claim C3 as amended: for every worker count in `[1, 64]`,
`compute_parallel` partitions `[0, 2^64 - 1)` — not `[0, 2^64)` — into
contiguous non-overlapping ranges: consecutive ranges abut, each non-last
range has size `chunk = (2^64 - 1) / w` (integer division of `u64::MAX`,
not of `2^64`), the last range extends exclusively to `2^64 - 1`, every
range stays inside `[0, 2^64 - 1)`, and every nonce below `2^64 - 1` lies
in exactly one range; the nonce `2^64 - 1` itself is assigned to no
worker. -/
theorem c3_partition : ∀ w : Nat, 1 ≤ w → w ≤ 64 →
    (∀ i, i + 1 < w → end_nonce w i = start_nonce w (i + 1) ∧
      end_nonce w i - start_nonce w i = chunk_size w) ∧
    end_nonce w (w - 1) = u64Max ∧
    (∀ i, i < w → end_nonce w i ≤ u64Max) ∧
    (∀ n, n < u64Max → ∃! i, i < w ∧ start_nonce w i ≤ n ∧ n < end_nonce w i) := by
  intro w hw1 hw2
  have hu : u64Max = 18446744073709551615 := by norm_num [u64Max]
  have hc : 0 < chunk_size w := Nat.div_pos (by omega) (by omega)
  have hwc : w * chunk_size w ≤ u64Max := by
    unfold chunk_size
    rw [Nat.mul_comm]
    exact Nat.div_mul_le_self u64Max w
  refine ⟨?_, ?_, ?_, ?_⟩
  · intro i hi
    have hne : i ≠ w - 1 := by omega
    refine ⟨by simp [end_nonce, start_nonce, hne], ?_⟩
    rw [end_nonce, if_neg hne, start_nonce, Nat.succ_mul]
    exact Nat.add_sub_cancel_left _ _
  · simp [end_nonce]
  · intro i hi
    rw [end_nonce]
    by_cases hie : i = w - 1
    · rw [if_pos hie]
    · rw [if_neg hie]
      exact Nat.le_trans (Nat.mul_le_mul_right _ (by omega)) hwc
  · intro n hn
    by_cases hcase : n < (w - 1) * chunk_size w
    · have hidx : n / chunk_size w < w - 1 := (Nat.div_lt_iff_lt_mul hc).mpr hcase
      refine ⟨n / chunk_size w, ⟨by omega, ?_, ?_⟩, ?_⟩
      · rw [start_nonce]
        exact Nat.div_mul_le_self n _
      · rw [end_nonce, if_neg (by omega)]
        calc n = chunk_size w * (n / chunk_size w) + n % chunk_size w :=
              (Nat.div_add_mod n _).symm
          _ < chunk_size w * (n / chunk_size w) + chunk_size w :=
              Nat.add_lt_add_left (Nat.mod_lt n hc) _
          _ = (n / chunk_size w + 1) * chunk_size w := by ring
      · rintro j ⟨hjw, hjs, hje⟩
        rw [start_nonce] at hjs
        by_cases hjl : j = w - 1
        · rw [hjl] at hjs
          exact absurd (Nat.lt_of_le_of_lt hjs hcase) (Nat.lt_irrefl _)
        · rw [end_nonce, if_neg hjl] at hje
          exact (Nat.div_eq_of_lt_le hjs hje).symm
    · refine ⟨w - 1, ⟨by omega, ?_, ?_⟩, ?_⟩
      · rw [start_nonce]
        exact Nat.le_of_not_lt hcase
      · rw [end_nonce, if_pos rfl]
        exact hn
      · rintro j ⟨hjw, hjs, hje⟩
        by_cases hjl : j = w - 1
        · exact hjl
        · exfalso
          rw [end_nonce, if_neg hjl] at hje
          have h1 : (j + 1) * chunk_size w ≤ (w - 1) * chunk_size w :=
            Nat.mul_le_mul_right _ (by omega)
          have h2 : (w - 1) * chunk_size w ≤ n := Nat.le_of_not_lt hcase
          exact Nat.lt_irrefl n (Nat.lt_of_lt_of_le hje (Nat.le_trans h1 h2))

/-- Claim C3 witness: the amended partition statement instantiated at four
workers. -/
theorem c3_witness :
    1 ≤ 4 ∧ 4 ≤ 64 ∧
    ((∀ i, i + 1 < 4 → end_nonce 4 i = start_nonce 4 (i + 1) ∧
        end_nonce 4 i - start_nonce 4 i = chunk_size 4) ∧
      end_nonce 4 (4 - 1) = u64Max ∧
      (∀ i, i < 4 → end_nonce 4 i ≤ u64Max) ∧
      (∀ n, n < u64Max →
        ∃! i, i < 4 ∧ start_nonce 4 i ≤ n ∧ n < end_nonce 4 i)) :=
  ⟨by decide, by decide, c3_partition 4 (by decide) (by decide)⟩

/-- When the difficulty exceeds 20 and every nonce up to the abort
checkpoint 101,000,000 fails the difficulty, the loop reaches the
checkpoint and aborts: the abort test fires at positive multiples of
1,000,000 once the nonce exceeds 100,000,000, and 101,000,000 is the
first such nonce. -/
theorem computeLoop_reaches_abort (P : List Nat) (d : Nat) (hd : 20 < d) :
    ∀ k n f, n + k = 101000000 →
      (∀ m, n ≤ m → m ≤ 101000000 →
        meets_difficulty (compute_hash P m) d = false) →
      101000000 - n < f →
      computeLoop P d f n = .error .searchAborted := by
  intro k
  induction k with
  | zero =>
    intro n f hnk hall hf
    obtain rfl : n = 101000000 := by omega
    obtain ⟨f2, rfl⟩ : ∃ f2, f = f2 + 1 := ⟨f - 1, by omega⟩
    have hm := hall 101000000 (Nat.le_refl _) (Nat.le_refl _)
    simp only [computeLoop]
    rw [if_neg (by simp [hm])]
    simp [hd]
  | succ k ih =>
    intro n f hnk hall hf
    obtain ⟨f2, rfl⟩ : ∃ f2, f = f2 + 1 := ⟨f - 1, by omega⟩
    have hm := hall n (Nat.le_refl _) (by omega)
    simp only [computeLoop]
    rw [if_neg (by simp [hm]), if_neg (by omega)]
    exact ih (n + 1) f2 (by omega) (fun m h1 h2 => hall m (by omega) h2) (by omega)

/-- When some nonce up to 101,000,000 meets the difficulty, the loop
returns the least such nonce before the abort checkpoint can fire. -/
theorem computeLoop_finds (P : List Nat) (d m : Nat) (hmle : m ≤ 101000000)
    (hmt : meets_difficulty (compute_hash P m) d = true)
    (hmin : ∀ j, j < m → meets_difficulty (compute_hash P j) d = false) :
    ∀ f n, n ≤ m → m - n < f → computeLoop P d f n = .ok m := by
  intro f
  induction f with
  | zero => intro n h1 h2; omega
  | succ f ih =>
    intro n h1 h2
    simp only [computeLoop]
    rcases Nat.eq_or_lt_of_le h1 with heq | hlt
    · rw [heq, if_pos hmt]
    · have hj := hmin n hlt
      rw [if_neg (by simp [hj]), if_neg (by omega)]
      exact ih (n + 1) hlt (by omega)

/-- Claim C7: for difficulties above 20 (and within the legal bound 64,
below which no search is started at all), `compute` ends with
`SearchAborted` exactly when no nonce up to the abort checkpoint
101,000,000 satisfies the predicate — the counter is tested at every
multiple of 1,000,000 and the abort fires once the attempts exceed
100,000,000 — and `SearchAborted` is distinct from `NoSolutionFound`. -/
theorem c7_abort_heuristic : ∀ (P : List Nat) (d : Nat), 20 < d → d ≤ 64 →
    ((∀ n, n ≤ 101000000 → meets_difficulty (compute_hash P n) d = false) ↔
      compute P d = .error .searchAborted) ∧
    Err.searchAborted ≠ Err.noSolutionFound := by
  intro P d h20 h64
  have hu : u64Max = 18446744073709551615 := by norm_num [u64Max]
  refine ⟨⟨fun hall => ?_, fun habort => ?_⟩, by simp⟩
  · unfold compute
    rw [if_neg (by omega)]
    exact computeLoop_reaches_abort P d h20 101000000 0 u64Max (by omega)
      (fun m h1 h2 => hall m h2) (by omega)
  · by_contra hnot
    push_neg at hnot
    obtain ⟨n0, hn0le, hn0⟩ := hnot
    have hn0t : meets_difficulty (compute_hash P n0) d = true := by
      cases hb : meets_difficulty (compute_hash P n0) d
      · exact absurd hb hn0
      · rfl
    have hex : ∃ m, m ≤ 101000000 ∧
        meets_difficulty (compute_hash P m) d = true := ⟨n0, hn0le, hn0t⟩
    have hspec := Nat.find_spec hex
    have hok : computeLoop P d u64Max 0 = .ok (Nat.find hex) := by
      refine computeLoop_finds P d (Nat.find hex) hspec.1 hspec.2 ?_ u64Max 0
        (Nat.zero_le _) (by omega)
      intro j hj
      have hmin := Nat.find_min hex hj
      cases hb : meets_difficulty (compute_hash P j) d
      · rfl
      · exact absurd ⟨by omega, hb⟩ hmin
    unfold compute at habort
    rw [if_neg (by omega), hok] at habort
    simp at habort

/-- Claim C7 witness: the abort characterization instantiated at the empty
payload and difficulty 21. -/
theorem c7_witness :
    20 < 21 ∧ 21 ≤ 64 ∧
    (((∀ n, n ≤ 101000000 →
          meets_difficulty (compute_hash [] n) 21 = false) ↔
        compute [] 21 = Except.error Err.searchAborted) ∧
      Err.searchAborted ≠ Err.noSolutionFound) :=
  ⟨by decide, by decide, c7_abort_heuristic [] 21 (by decide) (by decide)⟩

end Powex
